import Mathlib

/-!
Shallow embedding of `src/internal/embeddings-ffi/src/lib.rs`.

The library wraps a tokenizer and an ONNX model behind a C boundary:
`embeddings_init` loads both and returns an opaque handle,
`embeddings_encode` turns one text into a mean-pooled, L2-normalized
vector, and `embeddings_encode_batch` does the same for a list of texts
in parallel, concatenating the per-text vectors in input order.

Modelling choices:
* `f32` arithmetic is idealized as `ℝ`; `f32::sqrt` becomes `Real.sqrt`.
* The tokenizer and the model are opaque collaborators (spec sections 1
  and 4.2-4.4); they appear as function-valued fields of the handle.
  The `tokenizers` crate's `Encoding` keeps its three sequences parallel
  (same length), which `Encoding` records as proof fields.
* Null pointers are `Option.none`; out-pointers are `Option Unit` since
  only their nullness is observable in the source.
* A Rust panic escaping the `extern` function (a failed `unwrap`, a slice
  `&xs[..n]` with `n` out of range, or an out-of-bounds `ndarray` index)
  is the `FfiResult.fault` outcome, distinct from the boundary-safe
  `false`/null sentinel `FfiResult.err`.
* The rayon pool only schedules the batch items; `par_iter().map(...)
  .collect()` is deterministic and index-preserving, so its denotation is
  `List.map`. A panic in any worker propagates out of `pool.install`.
-/

namespace EmbeddingsFFI

/-- A C string argument after the null check: either bytes that decode as
UTF-8 (so `CStr::to_str` succeeds with this string) or invalid bytes. -/
inductive CStr where
  | valid : String → CStr
  | invalid : CStr

/-- `CStr::to_str`: `some` on valid UTF-8, `none` on the `Err(_)` branch. -/
def CStr.toStr : CStr → Option String
  | .valid s => some s
  | .invalid => none

/-- Outcome of an `extern "C"` call that returns `bool` plus out-parameters:
`ok v` means `true` was returned and the out-parameters were written with
`v`; `err` means `false` was returned and the out-parameters were left
untouched; `fault` means a Rust panic escaped the function (not a
boundary-safe return at all). -/
inductive FfiResult (α : Type) where
  | fault : FfiResult α
  | err : FfiResult α
  | ok : α → FfiResult α

/-- One item's outcome inside the batch `par_iter` map. The source type is
`Result<Vec<f32>, String>`; the error message only feeds the diagnostic
side channel (spec section 4.5) and is dropped. `fault` records a worker
that panicked. -/
inductive ItemResult where
  | fault : ItemResult
  | err : ItemResult
  | ok : List ℝ → ItemResult

/-- Output of `Tokenizer::encode` (`lib.rs:121`, `lib.rs:254`): token ids,
attention mask and token-type ids. The `tokenizers` crate keeps the three
sequences parallel: `get_ids`, `get_attention_mask` and `get_type_ids`
all have length equal to the number of tokens, recorded here as proof
fields. -/
structure Encoding where
  ids : List Nat
  attentionMask : List Nat
  typeIds : List Nat
  mask_len : attentionMask.length = ids.length
  type_len : typeIds.length = ids.length

/-- A rank-2 `i64` tensor as built by `tract_ndarray::Array2::from_shape_vec`
(`lib.rs:143-156`, `lib.rs:267-280`): a shape `(rows, cols)` and the
row-major data. -/
structure Array2 where
  rows : Nat
  cols : Nat
  data : List Int

/-- `Array2::from_shape_vec((rows, cols), data)`: succeeds iff the data
length matches the shape. -/
def Array2.fromShapeVec (rows cols : Nat) (data : List Int) : Except String Array2 :=
  if rows * cols = data.length then .ok ⟨rows, cols, data⟩ else .error "shape mismatch"

/-- The model's rank-3 `f32` output tensor, shape `(1, seqLen, dim)` (the
collaborator contract of spec section 4.4). `entry i j` is the value at
`tensor[[0, i, j]]` for in-range indices. -/
structure OutTensor where
  seqLen : Nat
  dim : Nat
  entry : Nat → Nat → ℝ

/-- What `outputs[0]` of a model run can be: an `f32` tensor (so
`to_array_view::<f32>()` succeeds) or something else (so it fails,
`lib.rs:190-193`, `lib.rs:294-295`). -/
inductive ModelOutput where
  | f32Tensor : OutTensor → ModelOutput
  | other : ModelOutput

/-- The opaque tokenizer collaborator: `Tokenizer::encode(text, false)`. -/
abbrev Tok := String → Except String Encoding

/-- The opaque model collaborator: `model.run(tvec!(ids, mask, types))`
followed by taking `outputs[0]`. -/
abbrev Model := Array2 → Array2 → Array2 → Except String ModelOutput

/-- `EmbeddingsHandle` (`lib.rs:8-13`). The rayon pool field only
schedules batch items and has no effect on the returned values, so it is
not represented. -/
structure EmbeddingsHandle where
  tokenizer : Tok
  model : Model
  embedding_dim : Nat

/-- The loaders `embeddings_init` calls: `Tokenizer::from_file`,
`tract_onnx::onnx().model_for_path(..).into_optimized().into_runnable()`,
and `rayon::ThreadPoolBuilder::new().num_threads(2).build()`
(`lib.rs:39-72`); all opaque collaborators. -/
structure LoadEnv where
  tokenizerFromFile : String → Except String Tok
  modelForPath : String → Except String Model
  poolBuild : Except String Unit

/-- `embeddings_init` (`lib.rs:18-84`): null checks, UTF-8 checks, load
tokenizer, load model, hardcode `embedding_dim = 384` (`lib.rs:60`),
build the pool, box the handle. Every failure returns the null handle. -/
def embeddings_init (env : LoadEnv) :
    Option CStr → Option CStr → Option EmbeddingsHandle
  | some mp, some tp =>
    match mp.toStr with
    | none => none
    | some mps =>
      match tp.toStr with
      | none => none
      | some tps =>
        match env.tokenizerFromFile tps with
        | .error _ => none
        | .ok tok =>
          match env.modelForPath mps with
          | .error _ => none
          | .ok mdl =>
            -- Get embedding dimension from model output (BGE-small default: 384)
            let embedding_dim := 384
            match env.poolBuild with
            | .error _ => none
            | .ok _ => some ⟨tok, mdl, embedding_dim⟩
  | _, _ => none

/-- Euclidean norm computed at `lib.rs:88-91`:
`vec.iter().map(|x| x * x).sum::<f32>().sqrt()`. -/
noncomputable def l2norm (v : List ℝ) : ℝ :=
  Real.sqrt ((v.map fun x => x * x).sum)

/-- `normalize_vector` (`lib.rs:87-98`): divide each component by the norm
when the norm exceeds `1e-12`, otherwise leave the vector untouched. -/
noncomputable def normalize_vector (v : List ℝ) : List ℝ :=
  if 1e-12 < l2norm v then v.map (fun x => x / l2norm v) else v

/-- The slice `&xs[..n]`: panics (`none`) when `n` exceeds the length. -/
def sliceTo (xs : List Nat) (n : Nat) : Option (List Nat) :=
  if n ≤ xs.length then some (xs.take n) else none

/-- Single-path truncation (`lib.rs:129-140`): when the ids exceed 512
tokens, reslice all three sequences to `[..512]`; otherwise keep them
as returned by the tokenizer. -/
def truncate_single (e : Encoding) : Option (List Nat × List Nat × List Nat) :=
  if 512 < e.ids.length then
    match sliceTo e.ids 512, sliceTo e.attentionMask 512, sliceTo e.typeIds 512 with
    | some i, some m, some t => some (i, m, t)
    | _, _, _ => none
  else
    some (e.ids, e.attentionMask, e.typeIds)

/-- Batch-path truncation (`lib.rs:260-265`): `seq_len = ids.len().min(512)`
and every sequence is sliced to `[..seq_len]`. -/
def truncate_batch (e : Encoding) : Option (List Nat × List Nat × List Nat) :=
  match sliceTo e.ids (min e.ids.length 512),
        sliceTo e.attentionMask (min e.ids.length 512),
        sliceTo e.typeIds (min e.ids.length 512) with
  | some i, some m, some t => some (i, m, t)
  | _, _, _ => none

/-- `.iter().map(|&x| x as i64).collect()`: the `u32 -> i64` cast is
value-preserving. -/
def toI64 (xs : List Nat) : List Int :=
  xs.map fun x => Int.ofNat x

/-- Single-path tensor packing (`lib.rs:143-156`): each sequence is packed
with shape `(1, its own length)`; `.unwrap()` on a shape mismatch is a
panic (`none`). -/
def pack_single (i m t : List Nat) : Option (Array2 × Array2 × Array2) :=
  match Array2.fromShapeVec 1 i.length (toI64 i),
        Array2.fromShapeVec 1 m.length (toI64 m),
        Array2.fromShapeVec 1 t.length (toI64 t) with
  | .ok a, .ok b, .ok c => some (a, b, c)
  | _, _, _ => none

/-- Batch-path tensor packing (`lib.rs:267-280`): every sequence is packed
with shape `(1, seq_len)`; `.unwrap()` on a shape mismatch is a panic. -/
def pack_batch (n : Nat) (i m t : List Nat) : Option (Array2 × Array2 × Array2) :=
  match Array2.fromShapeVec 1 n (toI64 i),
        Array2.fromShapeVec 1 n (toI64 m),
        Array2.fromShapeVec 1 n (toI64 t) with
  | .ok a, .ok b, .ok c => some (a, b, c)
  | _, _, _ => none

/-- Mean pooling of the first `n` sequence positions (`lib.rs:179-187`
single path with `n = shape[1]`, `lib.rs:300-308` batch path with `n` the
input `seq_len`): `pooled[j] = (sum over i < n of tensor[[0, i, j]]) / n`.
The loops read `tensor[[0, i, j]]` for every `i < n`, `j < t.dim`, and
`ndarray` bounds-checks each read, so the loop panics iff some read is out
of range, i.e. iff `t.seqLen < n` and there is at least one column. -/
noncomputable def poolOver (n : Nat) (t : OutTensor) : Option (List ℝ) :=
  if n ≤ t.seqLen ∨ t.dim = 0 then
    some ((List.range t.dim).map fun j =>
      ((List.range n).map fun i => t.entry i j).sum / (n : ℝ))
  else none

/-- The single path's pooled vector (`lib.rs:174-188`): pooling over the
output tensor's own `seq_len = shape[1]`. -/
noncomputable def meanPool (t : OutTensor) : List ℝ :=
  (List.range t.dim).map fun j =>
    ((List.range t.seqLen).map fun i => t.entry i j).sum / (t.seqLen : ℝ)

/-- Single path from inference to the written result (`lib.rs:159-210`):
run the model, fail on inference error or non-`f32` output, pool over
`shape[1]`, normalize, and write `(pointer to the vector, its length)`. -/
noncomputable def run_and_pool_single (mdl : Model) (a b c : Array2) :
    FfiResult (List ℝ × Nat) :=
  match mdl a b c with
  | .error _ => .err
  | .ok .other => .err
  | .ok (.f32Tensor t) =>
    match poolOver t.seqLen t with
    | none => .fault
    | some pooled =>
      let emb := normalize_vector pooled
      .ok (emb, emb.length)

/-- `embeddings_encode` after the null and UTF-8 checks (`lib.rs:121-210`). -/
noncomputable def encode_core (h : EmbeddingsHandle) (text : String) :
    FfiResult (List ℝ × Nat) :=
  match h.tokenizer text with
  | .error _ => .err
  | .ok enc =>
    match truncate_single enc with
    | none => .fault
    | some (i, m, t) =>
      match pack_single i m t with
      | none => .fault
      | some (a, b, c) => run_and_pool_single h.model a b c

/-- `embeddings_encode` (`lib.rs:103-211`): null checks on the handle, the
text and both out-pointers, then the UTF-8 check, then the pipeline. -/
noncomputable def embeddings_encode :
    Option EmbeddingsHandle → Option CStr → Option Unit → Option Unit →
    FfiResult (List ℝ × Nat)
  | some h, some t, some _, some _ =>
    match t.toStr with
    | none => .err
    | some s => encode_core h s
  | _, _, _, _ => .err

/-- Batch item from inference to its `Ok(pooled)` (`lib.rs:286-317`): run
the model, fail on inference error or non-`f32` output, pool over the
item's input `seq_len` (not the output tensor's own `shape[1]`),
normalize. -/
noncomputable def run_and_pool_item (mdl : Model) (n : Nat) (a b c : Array2) :
    ItemResult :=
  match mdl a b c with
  | .error _ => .err
  | .ok .other => .err
  | .ok (.f32Tensor t) =>
    match poolOver n t with
    | none => .fault
    | some pooled => .ok (normalize_vector pooled)

/-- One batch item inside the `par_iter` map (`lib.rs:250-318`): tokenize,
truncate to `seq_len = ids.len().min(512)`, pack with shape `(1, seq_len)`,
run the model, pool over the input `seq_len`, normalize. -/
noncomputable def encode_item (h : EmbeddingsHandle) (text : String) : ItemResult :=
  match h.tokenizer text with
  | .error _ => .err
  | .ok enc =>
    match truncate_batch enc with
    | none => .fault
    | some (i, m, t) =>
      match pack_batch (min enc.ids.length 512) i m t with
      | none => .fault
      | some (a, b, c) => run_and_pool_item h.model (min enc.ids.length 512) a b c

/-- The batch validation loop (`lib.rs:230-244`): walk the text pointers in
order; a null or non-UTF-8 entry fails the whole call before anything is
dispatched to the pool. -/
def convertTexts : List (Option CStr) → Option (List String)
  | [] => some []
  | none :: _ => none
  | some .invalid :: _ => none
  | some (.valid s) :: rest => (convertTexts rest).map fun tail => s :: tail

/-- Whether some worker panicked; a panic propagates out of
`pool.install` before the collection loop runs. -/
def hasFault (rs : List ItemResult) : Bool :=
  rs.any fun r => match r with | .fault => true | _ => false

/-- The collection loop (`lib.rs:326-335`): walk the per-item results in
input order, concatenating vectors; the first error aborts with `false`. -/
def collectResults : List ItemResult → Option (List ℝ)
  | [] => some []
  | .ok v :: rest => (collectResults rest).map fun tail => v ++ tail
  | .err :: _ => none
  | .fault :: _ => none

/-- Result assembly after the parallel map (`lib.rs:319-352`): a worker
panic escapes; otherwise collect in order, treat an empty concatenation as
failure (`lib.rs:337-340`), and write `(buffer, its length)`. -/
def assembleBatch (results : List ItemResult) : FfiResult (List ℝ × Nat) :=
  match hasFault results with
  | true => .fault
  | false =>
    match collectResults results with
    | none => .err
    | some all =>
      match all.isEmpty with
      | true => .err
      | false => .ok (all, all.length)

/-- `embeddings_encode_batch` (`lib.rs:215-353`): null checks, the
validation loop, the order-preserving parallel map, then assembly. -/
noncomputable def embeddings_encode_batch :
    Option EmbeddingsHandle → Option (List (Option CStr)) → Option Unit → Option Unit →
    FfiResult (List ℝ × Nat)
  | some h, some texts, some _, some _ =>
    match convertTexts texts with
    | none => .err
    | some strs => assembleBatch (strs.map fun s => encode_item h s)
  | _, _, _, _ => .err

/-- `embeddings_get_dimension` (`lib.rs:377-383`): 0 for a null handle,
otherwise the handle's stored dimension. -/
def embeddings_get_dimension : Option EmbeddingsHandle → Nat
  | none => 0
  | some h => h.embedding_dim

/-- Spec section 4.4's collaborator contract, first half: a successful
model run returns a tensor whose sequence axis matches the input tensors'
`seq_len` (output shape `(1, seq_len, embedding_dim)`). -/
def ModelSeqLenOk (m : Model) : Prop :=
  ∀ a b c t, m a b c = .ok (.f32Tensor t) → t.seqLen = a.cols

/-- Spec section 4.4's collaborator contract, second half: the model's
output embedding dimension is the fixed `d`. -/
def ModelDim (m : Model) (d : Nat) : Prop :=
  ∀ a b c t, m a b c = .ok (.f32Tensor t) → t.dim = d

/-- Forgetting the written length turns a single-path outcome into the
corresponding batch-item outcome. -/
def itemOfCore : FfiResult (List ℝ × Nat) → ItemResult
  | .fault => .fault
  | .err => .err
  | .ok (v, _) => .ok v

/-- The vector a successful single-path call writes (glue for stating the
batch-vs-single claims). -/
noncomputable def singleVec (h : EmbeddingsHandle) (s : String) : List ℝ :=
  match encode_core h s with
  | .ok (v, _) => v
  | _ => []

/-! Basic lemmas about the translated definitions. -/

theorem sliceTo_of_le (xs : List Nat) (n : Nat) (h : n ≤ xs.length) :
    sliceTo xs n = some (xs.take n) := by
  unfold sliceTo
  exact if_pos h

theorem truncate_single_eq (e : Encoding) :
    truncate_single e =
      some (e.ids.take (min e.ids.length 512),
            e.attentionMask.take (min e.ids.length 512),
            e.typeIds.take (min e.ids.length 512)) := by
  unfold truncate_single
  by_cases h : 512 < e.ids.length
  · have hmin : min e.ids.length 512 = 512 := min_eq_right h.le
    rw [if_pos h, sliceTo_of_le e.ids 512 h.le,
      sliceTo_of_le e.attentionMask 512 (e.mask_len ▸ h.le),
      sliceTo_of_le e.typeIds 512 (e.type_len ▸ h.le), hmin]
  · have hle : e.ids.length ≤ 512 := not_lt.mp h
    have hmin : min e.ids.length 512 = e.ids.length := min_eq_left hle
    have h1 : e.ids.take e.ids.length = e.ids := List.take_length e.ids
    have h2 : e.attentionMask.take e.ids.length = e.attentionMask := by
      rw [← e.mask_len]; exact List.take_length e.attentionMask
    have h3 : e.typeIds.take e.ids.length = e.typeIds := by
      rw [← e.type_len]; exact List.take_length e.typeIds
    rw [if_neg h, hmin, h1, h2, h3]

theorem truncate_batch_eq (e : Encoding) :
    truncate_batch e =
      some (e.ids.take (min e.ids.length 512),
            e.attentionMask.take (min e.ids.length 512),
            e.typeIds.take (min e.ids.length 512)) := by
  unfold truncate_batch
  have hi : min e.ids.length 512 ≤ e.ids.length := min_le_left _ _
  rw [sliceTo_of_le e.ids _ hi, sliceTo_of_le e.attentionMask _ (e.mask_len ▸ hi),
    sliceTo_of_le e.typeIds _ (e.type_len ▸ hi)]

theorem take_min_length_ids (e : Encoding) :
    (e.ids.take (min e.ids.length 512)).length = min e.ids.length 512 := by
  rw [List.length_take]
  exact min_eq_left (min_le_left _ _)

theorem take_min_length_mask (e : Encoding) :
    (e.attentionMask.take (min e.ids.length 512)).length = min e.ids.length 512 := by
  rw [List.length_take, e.mask_len]
  exact min_eq_left (min_le_left _ _)

theorem take_min_length_types (e : Encoding) :
    (e.typeIds.take (min e.ids.length 512)).length = min e.ids.length 512 := by
  rw [List.length_take, e.type_len]
  exact min_eq_left (min_le_left _ _)

theorem toI64_length (xs : List Nat) : (toI64 xs).length = xs.length := by
  unfold toI64
  exact List.length_map _ _

theorem fromShapeVec_ok (n : Nat) (data : List Int) (h : data.length = n) :
    Array2.fromShapeVec 1 n data = .ok ⟨1, n, data⟩ := by
  unfold Array2.fromShapeVec
  rw [if_pos]
  rw [one_mul, h]

theorem pack_single_eq (i m t : List Nat) :
    pack_single i m t =
      some (⟨1, i.length, toI64 i⟩, ⟨1, m.length, toI64 m⟩, ⟨1, t.length, toI64 t⟩) := by
  unfold pack_single
  rw [fromShapeVec_ok i.length (toI64 i) (toI64_length i),
    fromShapeVec_ok m.length (toI64 m) (toI64_length m),
    fromShapeVec_ok t.length (toI64 t) (toI64_length t)]

theorem pack_batch_eq (n : Nat) (i m t : List Nat)
    (hi : i.length = n) (hm : m.length = n) (ht : t.length = n) :
    pack_batch n i m t =
      some (⟨1, n, toI64 i⟩, ⟨1, n, toI64 m⟩, ⟨1, n, toI64 t⟩) := by
  unfold pack_batch
  rw [fromShapeVec_ok n (toI64 i) (by rw [toI64_length, hi]),
    fromShapeVec_ok n (toI64 m) (by rw [toI64_length, hm]),
    fromShapeVec_ok n (toI64 t) (by rw [toI64_length, ht])]

theorem poolOver_self (t : OutTensor) :
    poolOver t.seqLen t = some (meanPool t) := by
  unfold poolOver meanPool
  exact if_pos (Or.inl le_rfl)

theorem meanPool_length (t : OutTensor) : (meanPool t).length = t.dim := by
  simp [meanPool]

theorem normalize_length (v : List ℝ) :
    (normalize_vector v).length = v.length := by
  unfold normalize_vector
  split <;> simp

theorem sum_sq_nonneg (v : List ℝ) : 0 ≤ (v.map fun x => x * x).sum := by
  apply List.sum_nonneg
  intro y hy
  obtain ⟨x, _, rfl⟩ := List.mem_map.mp hy
  exact mul_self_nonneg x

theorem l2norm_nonneg (v : List ℝ) : 0 ≤ l2norm v :=
  Real.sqrt_nonneg _

theorem normalize_of_all_zero (v : List ℝ) (hv : ∀ x ∈ v, x = 0) :
    normalize_vector v = v := by
  have hs : (v.map fun x => x * x).sum = 0 := by
    apply List.sum_eq_zero
    intro y hy
    obtain ⟨x, hx, rfl⟩ := List.mem_map.mp hy
    rw [hv x hx, mul_zero]
  have hn : l2norm v = 0 := by rw [l2norm, hs, Real.sqrt_zero]
  unfold normalize_vector
  rw [hn, if_neg (by norm_num)]

theorem l2norm_div_self (v : List ℝ) (hpos : 0 < l2norm v) :
    l2norm (v.map fun x => x / l2norm v) = 1 := by
  set c := l2norm v with hc
  have hs : 0 ≤ (v.map fun x => x * x).sum := sum_sq_nonneg v
  have hcc : c * c = (v.map fun x => x * x).sum := by
    rw [hc, l2norm]
    exact Real.mul_self_sqrt hs
  have hfun : ((fun x => x * x) ∘ fun x => x / c) = fun x => (x * x) * (c * c)⁻¹ := by
    funext x
    simp only [Function.comp_apply]
    rw [div_mul_div_comm, div_eq_mul_inv]
  have hsum : ((v.map fun x => x / c).map fun x => x * x).sum
      = (v.map fun x => x * x).sum * (c * c)⁻¹ := by
    rw [List.map_map, hfun, ← List.sum_map_mul_right]
  have hspos : 0 < (v.map fun x => x * x).sum := by
    rw [← hcc]
    exact mul_pos hpos hpos
  rw [l2norm, hsum, hcc, mul_inv_cancel₀ (ne_of_gt hspos), Real.sqrt_one]

/-! The single path never lets a panic cross the boundary, and the batch
item agrees with the single path under the model's shape contract. -/

theorem run_and_pool_single_ne_fault (mdl : Model) (a b c : Array2) :
    run_and_pool_single mdl a b c ≠ .fault := by
  cases hrun : mdl a b c with
  | error e => simp [run_and_pool_single, hrun]
  | ok o =>
    cases o with
    | other => simp [run_and_pool_single, hrun]
    | f32Tensor t => simp [run_and_pool_single, hrun, poolOver_self]

theorem encode_core_ne_fault (h : EmbeddingsHandle) (s : String) :
    encode_core h s ≠ .fault := by
  cases htok : h.tokenizer s with
  | error e => simp [encode_core, htok]
  | ok enc =>
    simp only [encode_core, htok, truncate_single_eq enc, pack_single_eq]
    exact run_and_pool_single_ne_fault _ _ _ _

theorem run_and_pool_item_eq_single (mdl : Model) (n : Nat) (a b c : Array2)
    (hm : ModelSeqLenOk mdl) (hc : a.cols = n) :
    run_and_pool_item mdl n a b c = itemOfCore (run_and_pool_single mdl a b c) := by
  cases hrun : mdl a b c with
  | error e => simp [run_and_pool_item, run_and_pool_single, hrun, itemOfCore]
  | ok o =>
    cases o with
    | other => simp [run_and_pool_item, run_and_pool_single, hrun, itemOfCore]
    | f32Tensor t =>
      have hseq : t.seqLen = n := by rw [hm a b c t hrun, hc]
      simp only [run_and_pool_item, run_and_pool_single, hrun, ← hseq, poolOver_self]
      simp [itemOfCore]

theorem encode_item_eq_core (h : EmbeddingsHandle) (s : String)
    (hm : ModelSeqLenOk h.model) :
    encode_item h s = itemOfCore (encode_core h s) := by
  cases htok : h.tokenizer s with
  | error e => simp [encode_item, encode_core, htok, itemOfCore]
  | ok enc =>
    simp only [encode_item, encode_core, htok, truncate_single_eq enc,
      truncate_batch_eq enc, pack_single_eq,
      take_min_length_ids enc, take_min_length_mask enc, take_min_length_types enc,
      pack_batch_eq (min enc.ids.length 512) _ _ _
        (take_min_length_ids enc) (take_min_length_mask enc) (take_min_length_types enc)]
    exact run_and_pool_item_eq_single _ _ _ _ _ hm rfl

theorem encode_item_ne_fault (h : EmbeddingsHandle) (s : String)
    (hm : ModelSeqLenOk h.model) :
    encode_item h s ≠ .fault := by
  rw [encode_item_eq_core h s hm]
  cases hcore : encode_core h s with
  | fault => exact absurd hcore (encode_core_ne_fault h s)
  | err => simp [itemOfCore]
  | ok p =>
    cases p
    simp [itemOfCore]

/-! Lemmas about the batch validation, collection and assembly stages. -/

theorem convertTexts_map_valid (ts : List String) :
    convertTexts (ts.map fun s => some (CStr.valid s)) = some ts := by
  induction ts with
  | nil => rfl
  | cons a l ih => simp [convertTexts, ih]

theorem convertTexts_none_of_bad (ts : List (Option CStr))
    (hbad : ∃ x ∈ ts, x = none ∨ x = some CStr.invalid) :
    convertTexts ts = none := by
  induction ts with
  | nil =>
    obtain ⟨x, hx, _⟩ := hbad
    cases hx
  | cons a l ih =>
    obtain ⟨x, hx, hb⟩ := hbad
    cases hx with
    | head =>
      cases hb with
      | inl h => rw [h]; rfl
      | inr h => rw [h]; rfl
    | tail _ hmem =>
      cases a with
      | none => rfl
      | some c =>
        cases c with
        | invalid => rfl
        | valid s => simp [convertTexts, ih ⟨x, hmem, hb⟩]

theorem collectResults_map_ok (vs : List (List ℝ)) :
    collectResults (vs.map ItemResult.ok) = some vs.flatten := by
  induction vs with
  | nil => rfl
  | cons v l ih => simp [collectResults, ih]

theorem collectResults_none_of_mem_err (rs : List ItemResult)
    (hr : ItemResult.err ∈ rs) : collectResults rs = none := by
  induction rs with
  | nil => cases hr
  | cons r l ih =>
    cases hr with
    | head => rfl
    | tail _ hmem =>
      cases r with
      | fault => rfl
      | err => rfl
      | ok v => simp [collectResults, ih hmem]

theorem collectResults_some_inv (rs : List ItemResult) (all : List ℝ)
    (hc : collectResults rs = some all) :
    ∃ vs : List (List ℝ), rs = vs.map ItemResult.ok ∧ all = vs.flatten := by
  induction rs generalizing all with
  | nil =>
    refine ⟨[], rfl, ?_⟩
    simp [collectResults] at hc
    simp [hc.symm]
  | cons r l ih =>
    cases r with
    | fault => simp [collectResults] at hc
    | err => simp [collectResults] at hc
    | ok v =>
      simp only [collectResults, Option.map_eq_some'] at hc
      obtain ⟨tail, htail, rfl⟩ := hc
      obtain ⟨vs, rfl, rfl⟩ := ih tail htail
      exact ⟨v :: vs, rfl, by simp⟩

theorem hasFault_false_of (rs : List ItemResult)
    (h : ∀ r ∈ rs, r ≠ ItemResult.fault) : hasFault rs = false := by
  rw [hasFault, List.any_eq_false]
  intro r hr
  have hne := h r hr
  cases r <;> simp_all

theorem hasFault_map_ok (vs : List (List ℝ)) :
    hasFault (vs.map ItemResult.ok) = false := by
  apply hasFault_false_of
  intro r hr
  obtain ⟨v, _, rfl⟩ := List.mem_map.mp hr
  simp

theorem flatten_length_of_forall (vs : List (List ℝ)) (d : Nat)
    (h : ∀ v ∈ vs, v.length = d) : vs.flatten.length = vs.length * d := by
  induction vs with
  | nil => simp
  | cons v l ih =>
    have hv : v.length = d := h v (List.mem_cons_self v l)
    have hl := ih fun w hw => h w (List.mem_cons_of_mem v hw)
    simp only [List.flatten_cons, List.length_append, hv, hl, List.length_cons,
      Nat.succ_mul]
    omega

theorem flatten_slice (vs : List (List ℝ)) (d : Nat)
    (h : ∀ v ∈ vs, v.length = d) :
    ∀ i (hi : i < vs.length), (vs.flatten.drop (i * d)).take d = vs.get ⟨i, hi⟩ := by
  induction vs with
  | nil =>
    intro i hi
    simp at hi
  | cons v l ih =>
    intro i hi
    cases i with
    | zero =>
      have hv : v.length = d := h v (List.mem_cons_self v l)
      simp only [Nat.zero_mul, List.drop_zero, List.flatten_cons, List.get]
      rw [List.take_append_of_le_length (by rw [hv]), ← hv, List.take_length]
    | succ k =>
      have hv : v.length = d := h v (List.mem_cons_self v l)
      have hk : k < l.length := by
        simpa using Nat.lt_of_succ_lt_succ hi
      have harith : (k + 1) * d = v.length + k * d := by
        rw [hv, Nat.succ_mul]
        omega
      rw [List.flatten_cons, harith, ← List.drop_drop, List.drop_left]
      exact ih (fun w hw => h w (List.mem_cons_of_mem v hw)) k hk

/-! Shape facts about successful single-path calls and batch items. -/

theorem run_and_pool_single_ok_shape (mdl : Model) (d : Nat) (hd : ModelDim mdl d)
    (a b c : Array2) (p : List ℝ × Nat)
    (hok : run_and_pool_single mdl a b c = .ok p) :
    p.2 = p.1.length ∧ p.1.length = d := by
  cases hrun : mdl a b c with
  | error e => simp [run_and_pool_single, hrun] at hok
  | ok o =>
    cases o with
    | other => simp [run_and_pool_single, hrun] at hok
    | f32Tensor t =>
      simp only [run_and_pool_single, hrun, poolOver_self, FfiResult.ok.injEq] at hok
      have hdim : t.dim = d := hd _ _ _ _ hrun
      rw [← hok]
      refine ⟨rfl, ?_⟩
      rw [normalize_length, meanPool_length, hdim]

theorem encode_core_cases (h : EmbeddingsHandle) (s : String) :
    encode_core h s = .err ∨
    ∃ a b c, encode_core h s = run_and_pool_single h.model a b c := by
  cases htok : h.tokenizer s with
  | error e => left; simp [encode_core, htok]
  | ok enc =>
    right
    apply Exists.intro
    apply Exists.intro
    apply Exists.intro
    simp only [encode_core, htok, truncate_single_eq enc, pack_single_eq]
    rfl

theorem encode_core_ok_shape (h : EmbeddingsHandle) (s : String) (d : Nat)
    (hd : ModelDim h.model d) (p : List ℝ × Nat)
    (hok : encode_core h s = .ok p) : p.2 = p.1.length ∧ p.1.length = d := by
  rcases encode_core_cases h s with herr | ⟨a, b, c, heq⟩
  · rw [herr] at hok
    cases hok
  · rw [heq] at hok
    exact run_and_pool_single_ok_shape h.model d hd a b c p hok

theorem encode_item_ok_length (h : EmbeddingsHandle) (s : String) (d : Nat)
    (hseq : ModelSeqLenOk h.model) (hd : ModelDim h.model d) (v : List ℝ)
    (hok : encode_item h s = .ok v) : v.length = d := by
  rw [encode_item_eq_core h s hseq] at hok
  cases hcore : encode_core h s with
  | fault => exact absurd hcore (encode_core_ne_fault h s)
  | err => rw [hcore] at hok; simp [itemOfCore] at hok
  | ok p =>
    cases p with
    | mk w n =>
      rw [hcore] at hok
      simp only [itemOfCore, ItemResult.ok.injEq] at hok
      rw [← hok]
      exact (encode_core_ok_shape h s d hd (w, n) hcore).2

/-! Case analyses for the boundary wrappers, and assembly facts. -/

theorem embeddings_encode_cases (h : Option EmbeddingsHandle) (t : Option CStr)
    (eo lo : Option Unit) :
    embeddings_encode h t eo lo = .err ∨
    ∃ hh s, h = some hh ∧ embeddings_encode h t eo lo = encode_core hh s := by
  cases h with
  | none => left; rfl
  | some hh =>
    cases t with
    | none => left; rfl
    | some c =>
      cases eo with
      | none => left; rfl
      | some u =>
        cases lo with
        | none => left; rfl
        | some u2 =>
          cases c with
          | invalid => left; rfl
          | valid s => right; exact ⟨hh, s, rfl, rfl⟩

theorem embeddings_encode_batch_cases (h : Option EmbeddingsHandle)
    (ts : Option (List (Option CStr))) (eo lo : Option Unit) :
    embeddings_encode_batch h ts eo lo = .err ∨
    ∃ hh l strs, h = some hh ∧ ts = some l ∧ convertTexts l = some strs ∧
      embeddings_encode_batch h ts eo lo =
        assembleBatch (strs.map fun s => encode_item hh s) := by
  cases h with
  | none => left; rfl
  | some hh =>
    cases ts with
    | none => left; rfl
    | some l =>
      cases eo with
      | none => left; rfl
      | some u =>
        cases lo with
        | none => left; rfl
        | some u2 =>
          cases hcv : convertTexts l with
          | none => left; simp only [embeddings_encode_batch, hcv]
          | some strs =>
            right
            exact ⟨hh, l, strs, rfl, rfl, hcv, by simp only [embeddings_encode_batch, hcv]⟩

theorem assembleBatch_ne_fault (rs : List ItemResult)
    (h : ∀ r ∈ rs, r ≠ ItemResult.fault) : assembleBatch rs ≠ .fault := by
  simp only [assembleBatch, hasFault_false_of rs h]
  cases hc : collectResults rs with
  | none => simp
  | some all =>
    cases hall : all.isEmpty <;> simp [hall]

/-! Concrete collaborators used to instantiate the theorems: a tokenizer
that always yields a one-token encoding, a model that returns an
all-zeros tensor with two columns and the contractual sequence length,
and a load environment built from them. -/

/-- A one-token encoding: ids `[1]`, mask `[1]`, type ids `[0]`. -/
def encW : Encoding := ⟨[1], [1], [0], rfl, rfl⟩

/-- A tokenizer that returns `encW` for every text. -/
def tokW : Tok := fun _ => .ok encW

/-- A tokenizer that fails on the text `"bad"` and otherwise
returns `encW`. -/
def tokBadW : Tok := fun s => if s = "bad" then .error "tokenization failed" else .ok encW

/-- The all-zeros output tensor with `seqLen = 1` and `dim = 2`. -/
noncomputable def tW : OutTensor := ⟨1, 2, fun _ _ => 0⟩

/-- A model honouring the shape contract: output `seqLen` equals the input
`cols`, output dimension 2, all entries zero. -/
noncomputable def modelW : Model := fun a _ _ => .ok (.f32Tensor ⟨a.cols, 2, fun _ _ => 0⟩)

/-- A handle as `embeddings_init` would build it from `tokW` and `modelW`. -/
noncomputable def hW : EmbeddingsHandle := ⟨tokW, modelW, 384⟩

/-- A handle whose tokenizer fails on `"bad"`. -/
noncomputable def hBadW : EmbeddingsHandle := ⟨tokBadW, modelW, 384⟩

/-- A load environment whose loaders yield `tokW` and `modelW`. -/
noncomputable def envW : LoadEnv := ⟨fun _ => .ok tokW, fun _ => .ok modelW, .ok ()⟩

/-- An encoding with 513 tokens, one over the truncation limit. -/
def e513 : Encoding :=
  ⟨List.replicate 513 1, List.replicate 513 1, List.replicate 513 0,
    by rw [List.length_replicate],
    by rw [List.length_replicate, List.length_replicate]⟩

theorem modelW_seqLenOk : ModelSeqLenOk modelW := by
  intro a b c t ht
  simp only [modelW, Except.ok.injEq, ModelOutput.f32Tensor.injEq] at ht
  rw [← ht]

theorem modelW_dim : ModelDim modelW 2 := by
  intro a b c t ht
  simp only [modelW, Except.ok.injEq, ModelOutput.f32Tensor.injEq] at ht
  rw [← ht]

theorem meanPool_tW : meanPool tW = [0, 0] := by
  simp [meanPool, tW, List.range_succ]

theorem normalize_vector_00 : normalize_vector [(0 : ℝ), 0] = [(0 : ℝ), 0] := by
  apply normalize_of_all_zero
  intro x hx
  simpa using hx

theorem encode_core_hW (s : String) : encode_core hW s = .ok ([0, 0], 2) := by
  have htok : hW.tokenizer s = .ok encW := rfl
  have htr : truncate_single encW = some ([1], [1], [0]) := rfl
  have hpk : pack_single [1] [1] [0] =
      some (⟨1, 1, toI64 [1]⟩, ⟨1, 1, toI64 [1]⟩, ⟨1, 1, toI64 [0]⟩) := rfl
  have hrun : hW.model ⟨1, 1, toI64 [1]⟩ ⟨1, 1, toI64 [1]⟩ ⟨1, 1, toI64 [0]⟩ =
      .ok (.f32Tensor tW) := rfl
  have hpool : poolOver tW.seqLen tW = some (meanPool tW) := poolOver_self tW
  simp only [encode_core, htok, htr, hpk, run_and_pool_single, hrun, hpool,
    meanPool_tW, normalize_vector_00]
  rfl

theorem encode_item_hW (s : String) : encode_item hW s = .ok [0, 0] := by
  rw [encode_item_eq_core hW s modelW_seqLenOk, encode_core_hW s]
  rfl

theorem encode_item_hBadW_bad : encode_item hBadW "bad" = .err := by
  have htok : hBadW.tokenizer "bad" = .error "tokenization failed" := rfl
  simp only [encode_item, htok]

theorem batch_hW :
    embeddings_encode_batch (some hW)
      (some [some (CStr.valid "a"), some (CStr.valid "b")]) (some ()) (some ()) =
      .ok ([0, 0, 0, 0], 4) := by
  have hconv : convertTexts [some (CStr.valid "a"), some (CStr.valid "b")] =
      some ["a", "b"] := rfl
  have hmap : (["a", "b"]).map (fun s => encode_item hW s) =
      [ItemResult.ok [0, 0], ItemResult.ok [0, 0]] := by
    simp [encode_item_hW]
  simp only [embeddings_encode_batch, hconv, hmap]
  rfl

theorem l2norm_34 : l2norm [(3 : ℝ), 4] = 5 := by
  unfold l2norm
  have hs : (([(3 : ℝ), 4]).map fun x => x * x).sum = 25 := by norm_num
  rw [hs, show (25 : ℝ) = 5 ^ 2 by norm_num, Real.sqrt_sq (by norm_num : (0 : ℝ) ≤ 5)]

/-! The claims. -/

/-- Claim C1: `normalize_vector` divides every component by the vector's
Euclidean norm when that norm exceeds `1e-12`, and leaves the vector
completely unchanged when the norm is at or below `1e-12`; consequently
every returned vector either has L2 norm 1 or is the raw unscaled pooled
vector. -/
theorem claim_C1 (v : List ℝ) :
    (1e-12 < l2norm v →
      normalize_vector v = v.map (fun x => x / l2norm v) ∧
      l2norm (normalize_vector v) = 1) ∧
    (l2norm v ≤ 1e-12 → normalize_vector v = v) ∧
    (l2norm (normalize_vector v) = 1 ∨ normalize_vector v = v) := by
  have hpos : (0 : ℝ) < 1e-12 := by norm_num
  refine ⟨?_, ?_, ?_⟩
  · intro hlt
    have heq : normalize_vector v = v.map fun x => x / l2norm v := by
      unfold normalize_vector
      exact if_pos hlt
    refine ⟨heq, ?_⟩
    rw [heq]
    exact l2norm_div_self v (lt_trans hpos hlt)
  · intro hle
    unfold normalize_vector
    exact if_neg (not_lt.mpr hle)
  · by_cases hlt : 1e-12 < l2norm v
    · left
      have heq : normalize_vector v = v.map fun x => x / l2norm v := by
        unfold normalize_vector
        exact if_pos hlt
      rw [heq]
      exact l2norm_div_self v (lt_trans hpos hlt)
    · right
      unfold normalize_vector
      exact if_neg hlt

/-- Claim C1 witness: at the vector `[3, 4]` (norm 5), the normalized
branch is taken and the result has norm 1. -/
theorem claim_C1_witness :
    normalize_vector [(3 : ℝ), 4] = [(3 : ℝ), 4].map (fun x => x / l2norm [(3 : ℝ), 4]) ∧
    l2norm (normalize_vector [(3 : ℝ), 4]) = 1 :=
  (claim_C1 [(3 : ℝ), 4]).1 (by rw [l2norm_34]; norm_num)

/-- Claim C2: no failure unwinds past the C boundary as an uncaught fault:
`embeddings_init` always returns a handle or the null sentinel,
`embeddings_encode` never faults, and `embeddings_encode_batch` never
faults for a handle whose model honours the output-shape contract of spec
section 4.4 (output shape `(1, seq_len, embedding_dim)`); in particular
the `unwrap`ed rank-2 tensor packing never sees a shape mismatch, because
each sequence is packed against its own length. -/
theorem claim_C2 :
    (∀ env mp tp, embeddings_init env mp tp = none ∨
      ∃ h, embeddings_init env mp tp = some h) ∧
    (∀ h t eo lo, embeddings_encode h t eo lo ≠ .fault) ∧
    (∀ h ts eo lo, (∀ hh, h = some hh → ModelSeqLenOk hh.model) →
      embeddings_encode_batch h ts eo lo ≠ .fault) := by
  refine ⟨?_, ?_, ?_⟩
  · intro env mp tp
    cases hinit : embeddings_init env mp tp with
    | none => exact Or.inl rfl
    | some h => exact Or.inr ⟨h, rfl⟩
  · intro h t eo lo
    rcases embeddings_encode_cases h t eo lo with herr | ⟨hh, s, _, heq⟩
    · rw [herr]
      simp
    · rw [heq]
      exact encode_core_ne_fault hh s
  · intro h ts eo lo hcontract
    rcases embeddings_encode_batch_cases h ts eo lo with herr | ⟨hh, l, strs, hh2, _, _, heq⟩
    · rw [herr]
      simp
    · rw [heq]
      apply assembleBatch_ne_fault
      intro r hr
      obtain ⟨s, _, rfl⟩ := List.mem_map.mp hr
      exact encode_item_ne_fault hh s (hcontract hh hh2)

/-- Claim C2 witness: concrete calls on the contract-honouring handle `hW`
do not fault. -/
theorem claim_C2_witness :
    embeddings_encode (some hW) (some (CStr.valid "a")) (some ()) (some ()) ≠ .fault ∧
    embeddings_encode_batch (some hW) (some [some (CStr.valid "a")]) (some ()) (some ()) ≠
      .fault :=
  ⟨claim_C2.2.1 (some hW) (some (CStr.valid "a")) (some ()) (some ()),
    claim_C2.2.2 (some hW) (some [some (CStr.valid "a")]) (some ()) (some ())
      (fun hh hhh => by
        injection hhh with h1
        exact h1 ▸ modelW_seqLenOk)⟩

/-- Claim C4: the batch is all-or-nothing: if any item's pipeline fails
(and no worker panics, which the model shape contract guarantees), the
call returns the `false` sentinel and writes nothing, even when other
items succeeded. -/
theorem claim_C4 (h : EmbeddingsHandle) (ts : List (Option CStr)) (strs : List String)
    (eo lo : Option Unit)
    (hm : ModelSeqLenOk h.model)
    (hconv : convertTexts ts = some strs)
    (hfail : ∃ s ∈ strs, encode_item h s = .err) :
    embeddings_encode_batch (some h) (some ts) eo lo = .err := by
  cases eo with
  | none => rfl
  | some u =>
    cases lo with
    | none => rfl
    | some u2 =>
      obtain ⟨s, hs, herr⟩ := hfail
      have hnofault : ∀ r ∈ strs.map (fun s => encode_item h s), r ≠ ItemResult.fault := by
        intro r hr
        obtain ⟨w, _, rfl⟩ := List.mem_map.mp hr
        exact encode_item_ne_fault h w hm
      have hmem : ItemResult.err ∈ strs.map (fun s => encode_item h s) :=
        List.mem_map.mpr ⟨s, hs, herr⟩
      simp only [embeddings_encode_batch, hconv, assembleBatch,
        hasFault_false_of _ hnofault, collectResults_none_of_mem_err _ hmem]

/-- Claim C4 witness: a one-item batch whose only item fails to tokenize
returns the sentinel. -/
theorem claim_C4_witness :
    embeddings_encode_batch (some hBadW) (some [some (CStr.valid "bad")]) (some ()) (some ()) =
      .err :=
  claim_C4 hBadW [some (CStr.valid "bad")] ["bad"] (some ()) (some ())
    modelW_seqLenOk rfl ⟨"bad", by simp, encode_item_hBadW_bad⟩

/-- Claim C6: both paths keep exactly the first 512 elements of each of
the three parallel sequences when the raw tokenization exceeds 512
tokens, pass the sequences through unmodified at or below 512 tokens, and
implement the identical truncation policy. -/
theorem claim_C6 (e : Encoding) :
    (512 < e.ids.length →
      truncate_single e =
        some (e.ids.take 512, e.attentionMask.take 512, e.typeIds.take 512) ∧
      truncate_batch e =
        some (e.ids.take 512, e.attentionMask.take 512, e.typeIds.take 512)) ∧
    (e.ids.length ≤ 512 →
      truncate_single e = some (e.ids, e.attentionMask, e.typeIds) ∧
      truncate_batch e = some (e.ids, e.attentionMask, e.typeIds)) ∧
    truncate_single e = truncate_batch e := by
  have hs := truncate_single_eq e
  have hb := truncate_batch_eq e
  refine ⟨?_, ?_, by rw [hs, hb]⟩
  · intro hgt
    have hmin : min e.ids.length 512 = 512 := min_eq_right hgt.le
    rw [hs, hb, hmin]
    exact ⟨rfl, rfl⟩
  · intro hle
    have hmin : min e.ids.length 512 = e.ids.length := min_eq_left hle
    have h1 : e.ids.take e.ids.length = e.ids := List.take_length e.ids
    have h2 : e.attentionMask.take e.ids.length = e.attentionMask := by
      rw [← e.mask_len]
      exact List.take_length e.attentionMask
    have h3 : e.typeIds.take e.ids.length = e.typeIds := by
      rw [← e.type_len]
      exact List.take_length e.typeIds
    rw [hs, hb, hmin, h1, h2, h3]
    exact ⟨rfl, rfl⟩

/-- Claim C6 witness: a 513-token encoding is truncated to its first 512
elements by both paths. -/
theorem claim_C6_witness :
    truncate_single e513 =
      some (e513.ids.take 512, e513.attentionMask.take 512, e513.typeIds.take 512) ∧
    truncate_batch e513 =
      some (e513.ids.take 512, e513.attentionMask.take 512, e513.typeIds.take 512) :=
  (claim_C6 e513).1 (by
    show 512 < (List.replicate 513 1).length
    rw [List.length_replicate]
    norm_num)

/-- Claim C9: the embedding dimension stored at session creation is the
hardcoded constant 384, irrespective of the environment (and hence of
which model was loaded), and `embeddings_get_dimension` reports it. -/
theorem claim_C9 (env : LoadEnv) (mp tp : Option CStr) (h : EmbeddingsHandle)
    (hinit : embeddings_init env mp tp = some h) :
    h.embedding_dim = 384 ∧ embeddings_get_dimension (some h) = 384 := by
  have hdim : h.embedding_dim = 384 := by
    cases mp with
    | none => exact Option.noConfusion hinit
    | some mpc =>
      cases tp with
      | none => exact Option.noConfusion hinit
      | some tpc =>
        simp only [embeddings_init] at hinit
        cases hmp : mpc.toStr with
        | none => simp only [hmp] at hinit; exact Option.noConfusion hinit
        | some mps =>
          simp only [hmp] at hinit
          cases htp : tpc.toStr with
          | none => simp only [htp] at hinit; exact Option.noConfusion hinit
          | some tps =>
            simp only [htp] at hinit
            cases htk : env.tokenizerFromFile tps with
            | error e => simp only [htk] at hinit; exact Option.noConfusion hinit
            | ok tok =>
              simp only [htk] at hinit
              cases hmd : env.modelForPath mps with
              | error e => simp only [hmd] at hinit; exact Option.noConfusion hinit
              | ok mdl =>
                simp only [hmd] at hinit
                cases hpl : env.poolBuild with
                | error e => simp only [hpl] at hinit; exact Option.noConfusion hinit
                | ok u =>
                  simp only [hpl] at hinit
                  injection hinit with h1
                  rw [← h1]
  exact ⟨hdim, hdim⟩

/-- Claim C9 witness: the session built by `embeddings_init` over `envW`
(whose model has output dimension 2, not 384) still reports 384. -/
theorem claim_C9_witness :
    hW.embedding_dim = 384 ∧ embeddings_get_dimension (some hW) = 384 :=
  claim_C9 envW (some (CStr.valid "model.onnx")) (some (CStr.valid "tokenizer.json")) hW rfl

/-- Claim C10: a batch call with zero texts and non-null handle, texts and
output pointers returns the `false` sentinel and writes nothing, even
though no individual item failed. -/
theorem claim_C10 (h : EmbeddingsHandle) :
    embeddings_encode_batch (some h) (some []) (some ()) (some ()) = .err := rfl

/-- Claim C7: every fallible entry point rejects a null required argument
(null handle, null text pointer, null output parameter, null array
element) or a non-UTF-8 text by returning its failure sentinel before
doing any work and without writing the output parameters; in the batch
path any single invalid entry fails the whole batch before any item is
dispatched (the conclusion holds for every handle, so no collaborator is
consulted). -/
theorem claim_C7 :
    (∀ env tp, embeddings_init env none tp = none) ∧
    (∀ env mp, embeddings_init env mp none = none) ∧
    (∀ env tp, embeddings_init env (some CStr.invalid) tp = none) ∧
    (∀ env mp, embeddings_init env mp (some CStr.invalid) = none) ∧
    (∀ t eo lo, embeddings_encode none t eo lo = .err) ∧
    (∀ h eo lo, embeddings_encode h none eo lo = .err) ∧
    (∀ h t lo, embeddings_encode h t none lo = .err) ∧
    (∀ h t eo, embeddings_encode h t eo none = .err) ∧
    (∀ h eo lo, embeddings_encode (some h) (some CStr.invalid) eo lo = .err) ∧
    (∀ ts eo lo, embeddings_encode_batch none ts eo lo = .err) ∧
    (∀ h eo lo, embeddings_encode_batch h none eo lo = .err) ∧
    (∀ h ts lo, embeddings_encode_batch h ts none lo = .err) ∧
    (∀ h ts eo, embeddings_encode_batch h ts eo none = .err) ∧
    (∀ h ts eo lo, (∃ x ∈ ts, x = none ∨ x = some CStr.invalid) →
      embeddings_encode_batch (some h) (some ts) eo lo = .err) := by
  refine ⟨?_, ?_, ?_, ?_, ?_, ?_, ?_, ?_, ?_, ?_, ?_, ?_, ?_, ?_⟩
  · intro env tp
    rfl
  · intro env mp
    cases mp <;> rfl
  · intro env tp
    cases tp <;> rfl
  · intro env mp
    cases mp with
    | none => rfl
    | some c => cases c <;> rfl
  · intro t eo lo
    rfl
  · intro h eo lo
    cases h <;> rfl
  · intro h t lo
    cases h with
    | none => rfl
    | some hh => cases t <;> rfl
  · intro h t eo
    cases h with
    | none => rfl
    | some hh =>
      cases t with
      | none => rfl
      | some c => cases eo <;> rfl
  · intro h eo lo
    cases eo with
    | none => rfl
    | some u => cases lo <;> rfl
  · intro ts eo lo
    rfl
  · intro h eo lo
    cases h <;> rfl
  · intro h ts lo
    cases h with
    | none => rfl
    | some hh => cases ts <;> rfl
  · intro h ts eo
    cases h with
    | none => rfl
    | some hh =>
      cases ts with
      | none => rfl
      | some l => cases eo <;> rfl
  · intro h ts eo lo hbad
    cases eo with
    | none => rfl
    | some u =>
      cases lo with
      | none => rfl
      | some u2 =>
        simp only [embeddings_encode_batch, convertTexts_none_of_bad ts hbad]

/-- Claim C7 witness: a batch containing a null second element fails for
the concrete handle `hW`. -/
theorem claim_C7_witness :
    embeddings_encode_batch (some hW) (some [some (CStr.valid "a"), none])
      (some ()) (some ()) = .err :=
  claim_C7.2.2.2.2.2.2.2.2.2.2.2.2.2 hW [some (CStr.valid "a"), none] (some ()) (some ())
    ⟨none, by simp, Or.inl rfl⟩

/-- Claim C3: for every session whose model honours the shape contract
(fixed positive output dimension, output `seqLen` equal to the input
`seq_len`) and every non-empty list of valid texts on which all items
succeed, the batch call returns the concatenation of the single-call
vectors in input order. -/
theorem claim_C3 (h : EmbeddingsHandle) (d : Nat) (ts : List String)
    (hseq : ModelSeqLenOk h.model) (hdim : ModelDim h.model d) (hd : 0 < d)
    (hne : ts ≠ [])
    (hsucc : ∀ s ∈ ts, ∃ p, embeddings_encode (some h) (some (CStr.valid s))
      (some ()) (some ()) = .ok p) :
    (∀ s ∈ ts, embeddings_encode (some h) (some (CStr.valid s)) (some ()) (some ()) =
      .ok (singleVec h s, (singleVec h s).length)) ∧
    embeddings_encode_batch (some h) (some (ts.map fun s => some (CStr.valid s)))
      (some ()) (some ()) =
      .ok ((ts.map fun s => singleVec h s).flatten,
        ((ts.map fun s => singleVec h s).flatten).length) := by
  have henc : ∀ s, embeddings_encode (some h) (some (CStr.valid s)) (some ()) (some ()) =
      encode_core h s := fun s => rfl
  have hcore : ∀ s ∈ ts, encode_core h s = .ok (singleVec h s, (singleVec h s).length) := by
    intro s hs
    obtain ⟨p, hp⟩ := hsucc s hs
    rw [henc s] at hp
    obtain ⟨v, n⟩ := p
    have hshape := encode_core_ok_shape h s d hdim (v, n) hp
    have hsv : singleVec h s = v := by
      unfold singleVec
      rw [hp]
    rw [hp, hsv]
    have hn : n = v.length := hshape.1
    rw [hn]
  have hlenv : ∀ s ∈ ts, (singleVec h s).length = d := by
    intro s hs
    have := (encode_core_ok_shape h s d hdim _ (hcore s hs)).2
    simpa using this
  constructor
  · intro s hs
    rw [henc s]
    exact hcore s hs
  · have hconv := convertTexts_map_valid ts
    simp only [embeddings_encode_batch, hconv]
    have hitems : (ts.map fun s => encode_item h s) =
        (ts.map fun s => singleVec h s).map ItemResult.ok := by
      rw [List.map_map]
      apply List.map_congr_left
      intro s hs
      rw [encode_item_eq_core h s hseq, hcore s hs]
      rfl
    rw [hitems]
    simp only [assembleBatch, hasFault_map_ok, collectResults_map_ok]
    have hlen : ∀ v ∈ ts.map fun s => singleVec h s, v.length = d := by
      intro v hv
      obtain ⟨s, hs, rfl⟩ := List.mem_map.mp hv
      exact hlenv s hs
    have hflatlen := flatten_length_of_forall (ts.map fun s => singleVec h s) d hlen
    have hnonempty : ((ts.map fun s => singleVec h s).flatten).isEmpty = false := by
      cases hflat : (ts.map fun s => singleVec h s).flatten with
      | nil =>
        exfalso
        rw [hflat, List.length_map] at hflatlen
        simp only [List.length_nil] at hflatlen
        have h1 : 0 < ts.length := List.length_pos.mpr hne
        have h2 : 0 < ts.length * d := Nat.mul_pos h1 hd
        omega
      | cons a l => rfl
    simp only [hnonempty]

/-- Claim C3 witness: a two-text batch over the handle `hW` equals the
concatenation of the two single-call vectors. -/
theorem claim_C3_witness :
    (∀ s ∈ ["a", "b"], embeddings_encode (some hW) (some (CStr.valid s)) (some ()) (some ()) =
      .ok (singleVec hW s, (singleVec hW s).length)) ∧
    embeddings_encode_batch (some hW) (some ((["a", "b"]).map fun s => some (CStr.valid s)))
      (some ()) (some ()) =
      .ok (((["a", "b"]).map fun s => singleVec hW s).flatten,
        (((["a", "b"]).map fun s => singleVec hW s).flatten).length) :=
  claim_C3 hW 2 ["a", "b"] modelW_seqLenOk modelW_dim (by norm_num) (by simp)
    (fun s _ => ⟨([0, 0], 2), encode_core_hW s⟩)

/-- Claim C5: for every successful batch call over a contract-honouring
model with fixed output dimension `d`, the buffer length is
`num_texts * d` and the vector for input text `i` occupies exactly the
floats at indices from `i * d` up to `(i + 1) * d` of the flat row-major
buffer, index-aligned with the input list. -/
theorem claim_C5 (h : EmbeddingsHandle) (d : Nat) (ts : List (Option CStr))
    (strs : List String) (buf : List ℝ) (len : Nat)
    (hseq : ModelSeqLenOk h.model) (hdim : ModelDim h.model d)
    (hconv : convertTexts ts = some strs)
    (hok : embeddings_encode_batch (some h) (some ts) (some ()) (some ()) =
      .ok (buf, len)) :
    len = buf.length ∧ buf.length = strs.length * d ∧
    ∀ i (hi : i < strs.length), ∃ v,
      encode_item h (strs.get ⟨i, hi⟩) = .ok v ∧ v.length = d ∧
      (buf.drop (i * d)).take d = v := by
  simp only [embeddings_encode_batch, hconv] at hok
  have hnof : hasFault (strs.map fun s => encode_item h s) = false := by
    apply hasFault_false_of
    intro r hr
    obtain ⟨s, _, rfl⟩ := List.mem_map.mp hr
    exact encode_item_ne_fault h s hseq
  simp only [assembleBatch, hnof] at hok
  cases hcoll : collectResults (strs.map fun s => encode_item h s) with
  | none =>
    simp only [hcoll] at hok
    exact absurd hok (by simp)
  | some all =>
    simp only [hcoll] at hok
    cases hemp : all.isEmpty with
    | true =>
      simp only [hemp] at hok
      exact absurd hok (by simp)
    | false =>
      simp only [hemp, FfiResult.ok.injEq, Prod.mk.injEq] at hok
      obtain ⟨hb, hl⟩ := hok
      obtain ⟨vs, hvs, hall⟩ := collectResults_some_inv _ all hcoll
      have hlen_each : ∀ v ∈ vs, v.length = d := by
        intro v hv
        have hmem : ItemResult.ok v ∈ strs.map fun s => encode_item h s := by
          rw [hvs]
          exact List.mem_map_of_mem _ hv
        obtain ⟨s, _, hitem⟩ := List.mem_map.mp hmem
        exact encode_item_ok_length h s d hseq hdim v hitem
      have hvslen : vs.length = strs.length := by
        have h1 : (vs.map ItemResult.ok).length =
            (strs.map fun s => encode_item h s).length := by
          rw [← hvs]
        simpa using h1
      refine ⟨?_, ?_, ?_⟩
      · rw [← hb, ← hl]
      · rw [← hb, hall, flatten_length_of_forall vs d hlen_each, hvslen]
      · intro i hi
        have hi' : i < vs.length := by rw [hvslen]; exact hi
        refine ⟨vs.get ⟨i, hi'⟩, ?_, hlen_each _ (vs.get_mem _ _), ?_⟩
        · have hq := congrArg (fun l => l[i]?) hvs
          simp only [List.getElem?_map] at hq
          rw [List.getElem?_eq_getElem hi] at hq
          rw [List.getElem?_eq_getElem hi'] at hq
          simp only [Option.map_some'] at hq
          injection hq
        · rw [← hb, hall]
          exact flatten_slice vs d hlen_each i hi'

/-- Claim C5 witness: in the two-text batch over `hW` the second vector
occupies the second pair of floats of the buffer. -/
theorem claim_C5_witness :
    ∃ v, encode_item hW ((["a", "b"]).get ⟨1, by simp⟩) = .ok v ∧ v.length = 2 ∧
      ((([0, 0, 0, 0] : List ℝ).drop (1 * 2)).take 2) = v :=
  (claim_C5 hW 2 [some (CStr.valid "a"), some (CStr.valid "b")] ["a", "b"]
    ([0, 0, 0, 0]) 4 modelW_seqLenOk modelW_dim rfl batch_hW).2.2 1 (by simp)

theorem list_range_sum_eq (n : Nat) (f : Nat → ℝ) :
    ((List.range n).map f).sum = (Finset.range n).sum f := rfl

theorem meanPool_avg (t : OutTensor) :
    meanPool t = (List.range t.dim).map fun j =>
      (Finset.range t.seqLen).sum (fun k => t.entry k j) / (t.seqLen : ℝ) := by
  unfold meanPool
  apply List.map_congr_left
  intro j _
  rw [list_range_sum_eq]

/-- Claim C8 counterexample: a valid session built by `embeddings_init`
over a loadable model with output dimension 2 yields, for the non-empty
text `"x"`, a successful `embeddings_encode` writing a vector of length 2,
while `embeddings_get_dimension` reports 384 — so the written length is
not the session's reported dimension. -/
theorem claim_C8_counterexample :
    embeddings_encode
        (embeddings_init envW (some (CStr.valid "model.onnx")) (some (CStr.valid "tokenizer.json")))
        (some (CStr.valid "x")) (some ()) (some ()) = .ok ([0, 0], 2) ∧
    embeddings_get_dimension
        (embeddings_init envW (some (CStr.valid "model.onnx")) (some (CStr.valid "tokenizer.json"))) =
      384 ∧
    (2 : Nat) ≠ 384 := by
  have hinit : embeddings_init envW (some (CStr.valid "model.onnx"))
      (some (CStr.valid "tokenizer.json")) = some hW := rfl
  refine ⟨?_, rfl, by decide⟩
  rw [hinit]
  exact encode_core_hW "x"

/-- Claim C8 amended: a successful `embeddings_encode` writes a vector of
length exactly the model's output embedding dimension (the output
tensor's last axis, `shape[2]`) — which coincides with the session's
reported dimension only when the loaded model outputs 384 — and the
mean-pooled value at each output dimension is the average of that
dimension over all `seq_len` token positions of the output tensor. -/
theorem claim_C8_amended (h : EmbeddingsHandle) (s : String) (enc : Encoding)
    (i m ty : List Nat) (a b c : Array2) (t : OutTensor)
    (htok : h.tokenizer s = .ok enc)
    (htr : truncate_single enc = some (i, m, ty))
    (hpk : pack_single i m ty = some (a, b, c))
    (hrun : h.model a b c = .ok (.f32Tensor t)) :
    embeddings_encode (some h) (some (CStr.valid s)) (some ()) (some ()) =
      .ok (normalize_vector (meanPool t), t.dim) ∧
    (normalize_vector (meanPool t)).length = t.dim ∧
    meanPool t = (List.range t.dim).map fun j =>
      (Finset.range t.seqLen).sum (fun k => t.entry k j) / (t.seqLen : ℝ) := by
  refine ⟨?_, ?_, meanPool_avg t⟩
  · show encode_core h s = .ok (normalize_vector (meanPool t), t.dim)
    simp only [encode_core, htok, htr, hpk, run_and_pool_single, hrun, poolOver_self]
    rw [normalize_length, meanPool_length]
  · rw [normalize_length, meanPool_length]

/-- Claim C8 amended witness: for the handle `hW` and the text `"x"` the
encode call writes the normalized mean pool of the model's 2-column
output tensor, of length 2. -/
theorem claim_C8_amended_witness :
    embeddings_encode (some hW) (some (CStr.valid "x")) (some ()) (some ()) =
      .ok (normalize_vector (meanPool tW), tW.dim) ∧
    (normalize_vector (meanPool tW)).length = tW.dim ∧
    meanPool tW = (List.range tW.dim).map fun j =>
      (Finset.range tW.seqLen).sum (fun k => tW.entry k j) / (tW.seqLen : ℝ) :=
  claim_C8_amended hW "x" encW [1] [1] [0] ⟨1, 1, toI64 [1]⟩ ⟨1, 1, toI64 [1]⟩
    ⟨1, 1, toI64 [0]⟩ tW rfl rfl rfl rfl

end EmbeddingsFFI
